import Mathlib

/-!
Verification of the streak-detection core of the chess-games pipeline.

The definitions below are a shallow embedding of
`data_manipulator.py` (`calculate_streaks_and_details` and
`create_combined_frequencies_dataframe`).  Streak lengths are Python
floats accumulating only integers and exact halves, so they are
modelled as rationals; a pandas row becomes a `Record`, a detail dict
becomes an `Entry`, and the per-row loop body becomes `step` folded
over the record list.  The two output accumulators `streaks` and
`details` are always appended to together at emission points, so the
scan state keeps them paired in `emitted`; the pair of flat lists the
Python function returns is recovered in `calculate_streaks_and_details`.
-/

namespace TheProcedure

/-- One processed game row of the filtered dataframe: columns `ID`,
`Winner`, `Opponent_ELO`, `ELO Difference In Terms of Player`. -/
structure Record where
  id : Nat
  winner : String
  opponent_elo : Int
  elo_difference : Int
deriving DecidableEq, Repr

/-- One detail dict appended to `streak_details`, with keys `ID`,
`Opponent_ELO` and `ELO_Difference`. -/
structure Entry where
  id : Nat
  opponent_elo : Int
  elo_difference : Int
deriving DecidableEq, Repr

/-- The loop state of `calculate_streaks_and_details`, with the two
output lists `streaks`/`details` kept as paired emissions. -/
structure ScanState where
  emitted : List (ℚ × List Entry)
  current_streak : ℚ
  streak_start_id : Option Nat
  streak_details : List Entry
  last_id : Option Nat
  pending_draw : ℚ
deriving DecidableEq, Repr

/-- Mirrors `is_sequential = (last_id is None) or (current_id == last_id + 1)`. -/
def is_sequential (last : Option Nat) (i : Nat) : Bool :=
  match last with
  | none => true
  | some l => i == l + 1

/-- The detail dict built directly from the current row. -/
def entryOfRow (r : Record) : Entry :=
  ⟨r.id, r.opponent_elo, r.elo_difference⟩

/-- Models the lookup `df.loc[df[ID] == id, ...].values[0]`: the first row
of the full table whose `ID` equals `i`, packaged as a detail entry whose
`ID` field is the searched id. -/
def lookupEntry (df : List Record) (i : Nat) : Option Entry :=
  (df.find? (fun q => q.id == i)).map (fun q => ⟨i, q.opponent_elo, q.elo_difference⟩)

/-- The list comprehension of the win-continuation branch: one looked-up
entry per id in `range(last_id + 1, current_id + 1)`.  (A missing id
would crash the Python lookup; it is dropped here, and the theorems
below show the range is always the singleton of an id present in `df`,
so the two semantics never differ on a run of the scanner.) -/
def contDetails (df : List Record) (l i : Nat) : List Entry :=
  (List.range' (l + 1) (i - l)).filterMap (lookupEntry df)

/-- Models `streaks.append(current_streak); details.extend(streak_details)`
guarded by `current_streak > 1` — shared by the three emission sites. -/
def emitIfLong (s : ScanState) : List (ℚ × List Entry) :=
  if 1 < s.current_streak then s.emitted ++ [(s.current_streak, s.streak_details)]
  else s.emitted

/-- The body of the per-row loop `for idx, row in df.iterrows()`. -/
def step (df : List Record) (player_name : String) (s : ScanState) (r : Record) : ScanState :=
  if r.winner = player_name then
    if s.streak_start_id = none ∨ is_sequential s.last_id r.id = false then
      { emitted := emitIfLong s
        current_streak := 1
        streak_start_id := some r.id
        streak_details := [entryOfRow r]
        last_id := some r.id
        pending_draw := 0 }
    else
      { s with
        current_streak := s.current_streak + (1 + s.pending_draw)
        streak_details := s.streak_details ++ contDetails df (s.last_id.getD 0) r.id
        last_id := some r.id
        pending_draw := 0 }
  else if r.winner = "Draw" ∧ is_sequential s.last_id r.id = true then
    if s.streak_start_id ≠ none then
      { s with
        pending_draw := 1/2
        streak_details := s.streak_details ++ [entryOfRow r]
        last_id := some r.id }
    else
      { s with pending_draw := 0, last_id := some r.id }
  else
    { emitted := emitIfLong s
      current_streak := 0
      streak_start_id := none
      streak_details := []
      last_id := some r.id
      pending_draw := 0 }

/-- The state before the loop starts. -/
def initState : ScanState :=
  { emitted := [], current_streak := 0, streak_start_id := none
    streak_details := [], last_id := none, pending_draw := 0 }

/-- The loop of `calculate_streaks_and_details` over the whole table. -/
def runScan (df : List Record) (player_name : String) : ScanState :=
  df.foldl (step df player_name) initState

/-- The emissions of a full scan, including the final
`if current_streak > 1` emission after the loop. -/
def streakPairs (df : List Record) (player_name : String) : List (ℚ × List Entry) :=
  emitIfLong (runScan df player_name)

/-- The `(streaks, details)` pair returned by
`calculate_streaks_and_details`. -/
def calculate_streaks_and_details (df : List Record) (player_name : String) :
    List ℚ × List Entry :=
  ((streakPairs df player_name).map Prod.fst,
   ((streakPairs df player_name).map Prod.snd).flatten)

/-- The loop state after the first `n` rows have been processed. -/
def scanStateAt (df : List Record) (player_name : String) (n : Nat) : ScanState :=
  (df.take n).foldl (step df player_name) initState

/-- The condition of the win-continuation (`else`) branch: the row is a
win and not (`streak_start_id is None or not is_sequential`). -/
def contBranch (player_name : String) (s : ScanState) (r : Record) : Prop :=
  r.winner = player_name ∧
    ¬(s.streak_start_id = none ∨ is_sequential s.last_id r.id = false)

instance (player_name : String) (s : ScanState) (r : Record) :
    Decidable (contBranch player_name s r) :=
  inferInstanceAs (Decidable (r.winner = player_name ∧
    ¬(s.streak_start_id = none ∨ is_sequential s.last_id r.id = false)))

/-- Asserts that `ds` is a run of consecutive draw rows with ids `l+1, l+2, ...`. -/
def drawRunFrom : Nat → List Record → Prop
  | _, [] => True
  | l, r :: t => r.id = l + 1 ∧ r.winner = "Draw" ∧ drawRunFrom r.id t

/-- Models `data[Streak].max()`: `none` stands for the NaN that a pandas
max returns on an empty series. -/
def seriesMax : List ℚ → Option ℚ
  | [] => none
  | x :: t => some (t.foldl max x)

/-- Models `np.arange(start, stop, step)` for a positive rational step:
`ceil((stop - start) / step)` evenly spaced values from `start`.  The
floats the aggregator feeds in are integers and exact halves, on which
float arithmetic is exact, so rational arithmetic is faithful. -/
def np_arange (start stop stp : ℚ) : List ℚ :=
  (List.range (⌈(stop - start) / stp⌉).toNat).map (fun i : Nat => start + (i : ℚ) * stp)

/-- The core of `create_combined_frequencies_dataframe`: from the list
of streak values, the `(Xi, Fi)` rows of the frequency table.  On an
empty input the maximum is NaN and `np.arange(2, NaN + 0.5, 0.5)`
raises, which is modelled as the error value. -/
def create_combined_frequencies (xs : List ℚ) : Except String (List (ℚ × Nat)) :=
  match seriesMax xs with
  | none => .error "ValueError: cannot convert float NaN to integer"
  | some m =>
      let xi_values := np_arange 2 (m + 1/2) (1/2)
      .ok (xi_values.map (fun xi => (xi, xs.count xi)))

/-! ### Concrete record tables for the spec scenarios -/

/-- Scenario A: ids 1, 2, 3, all wins for player `"P"`. -/
def exA : List Record :=
  [⟨1, "P", 1500, 10⟩, ⟨2, "P", 1480, -12⟩, ⟨3, "P", 1600, 25⟩]

/-- Scenario B: ids 1, 2, 3 with Win, Draw, Win. -/
def exB : List Record :=
  [⟨1, "P", 1500, 10⟩, ⟨2, "Draw", 1450, -20⟩, ⟨3, "P", 1520, 5⟩]

/-- Scenario C: ids 1, 2, 3 with Win, Draw, Loss. -/
def exC : List Record :=
  [⟨1, "P", 1500, 10⟩, ⟨2, "Draw", 1450, -20⟩, ⟨3, "Q", 1520, 5⟩]

/-- Scenario D: ids 1 and 3, both wins, with a gap at id 2. -/
def exD : List Record :=
  [⟨1, "P", 1500, 10⟩, ⟨3, "P", 1520, 5⟩]

/-- A four-record input: ids 1, 2, 3, 4 with Win, Win, Draw, Loss. -/
def exWWDL : List Record :=
  [⟨1, "P", 1500, 10⟩, ⟨2, "P", 1480, -12⟩, ⟨3, "Draw", 1450, -20⟩, ⟨4, "Q", 1520, 5⟩]

/-! ### Basic facts about one loop step -/

lemma step_last_id (df : List Record) (pn : String) (s : ScanState) (r : Record) :
    (step df pn s r).last_id = some r.id := by
  unfold step
  split_ifs <;> rfl

lemma step_pending (df : List Record) (pn : String) (s : ScanState) (r : Record) :
    (step df pn s r).pending_draw = 0 ∨ (step df pn s r).pending_draw = 1/2 := by
  unfold step
  split_ifs <;> simp

lemma mem_emitIfLong {s : ScanState} {p : ℚ × List Entry} (hp : p ∈ emitIfLong s) :
    p ∈ s.emitted ∨ (p = (s.current_streak, s.streak_details) ∧ 1 < s.current_streak) := by
  unfold emitIfLong at hp
  split_ifs at hp with h
  · rcases List.mem_append.mp hp with h1 | h1
    · exact Or.inl h1
    · exact Or.inr ⟨List.mem_singleton.mp h1, h⟩
  · exact Or.inl hp

lemma step_emitted_cases (df : List Record) (pn : String) (s : ScanState) (r : Record) :
    (step df pn s r).emitted = s.emitted ∨ (step df pn s r).emitted = emitIfLong s := by
  unfold step
  split_ifs <;> simp

lemma foldl_emitted_gt (df : List Record) (pn : String) :
    ∀ (rs : List Record) (s : ScanState), (∀ p ∈ s.emitted, 1 < p.1) →
      ∀ p ∈ (rs.foldl (step df pn) s).emitted, 1 < p.1 := by
  intro rs
  induction rs with
  | nil => intro s h; simpa using h
  | cons r t ih =>
      intro s h
      refine ih (step df pn s r) ?_
      intro q hq
      rcases step_emitted_cases df pn s r with he | he
      · exact h q (he ▸ hq)
      · rcases mem_emitIfLong (he ▸ hq) with h1 | h1
        · exact h q h1
        · rw [h1.1]; exact h1.2

lemma emitIfLong_gt {s : ScanState} (h : ∀ p ∈ s.emitted, 1 < p.1) :
    ∀ p ∈ emitIfLong s, 1 < p.1 := by
  intro p hp
  rcases mem_emitIfLong hp with h1 | h1
  · exact h p h1
  · rw [h1.1]; exact h1.2

/-! ### Lookup and range facts for the win-continuation branch -/

lemma lookupEntry_id {df : List Record} {i : Nat} {x : Entry}
    (hx : lookupEntry df i = some x) : x.id = i := by
  unfold lookupEntry at hx
  rcases Option.map_eq_some'.mp hx with ⟨q, _, hq⟩
  rw [← hq]

lemma contDetails_succ_cases (df : List Record) (l : Nat) :
    contDetails df l (l + 1) = [] ∨
      ∃ x, contDetails df l (l + 1) = [x] ∧ x.id = l + 1 := by
  unfold contDetails
  have h1 : l + 1 - l = 1 := by omega
  have h2 : List.range' (l + 1) 1 = [l + 1] := by simp [List.range']
  rw [h1, h2]
  cases hf : lookupEntry df (l + 1) with
  | none => left; simp [List.filterMap_cons, hf]
  | some x =>
      right
      exact ⟨x, by simp [List.filterMap_cons, hf], lookupEntry_id hf⟩

/-! ### The id-range invariant of the scan -/

/-- Asserts that the ids of `rs` are strictly increasing and that the first
one is above the id recorded in the accumulator `o`. -/
def idsOK : Option Nat → List Record → Prop
  | _, [] => True
  | o, r :: t => (∀ l, o = some l → l < r.id) ∧ idsOK (some r.id) t

/-- The invariant the scan state keeps while walking a table of strictly
increasing ids: detail ids inside each emitted streak and inside the open
streak are strictly increasing, emitted streaks precede each other and the
open streak id-wise, and everything seen so far is bounded by `last_id`. -/
structure ScanInv (s : ScanState) : Prop where
  hEm : ∀ p ∈ s.emitted, List.Pairwise (· < ·) (p.2.map Entry.id)
  hCross : List.Pairwise
    (fun p q : ℚ × List Entry => ∀ x ∈ p.2, ∀ y ∈ q.2, x.id < y.id) s.emitted
  hCur : List.Pairwise (· < ·) (s.streak_details.map Entry.id)
  hEmCur : ∀ p ∈ s.emitted, ∀ x ∈ p.2, ∀ y ∈ s.streak_details, x.id < y.id
  hUbEm : ∀ l, s.last_id = some l → ∀ p ∈ s.emitted, ∀ x ∈ p.2, x.id ≤ l
  hUbCur : ∀ l, s.last_id = some l → ∀ y ∈ s.streak_details, y.id ≤ l
  hNone : s.last_id = none →
    s.emitted = [] ∧ s.streak_details = [] ∧ s.streak_start_id = none

lemma scanInv_init : ScanInv initState := by
  refine ⟨?_, ?_, ?_, ?_, ?_, ?_, ?_⟩ <;> simp [initState]

lemma emitIfLong_inv {s : ScanState} (h : ScanInv s) :
    (∀ p ∈ emitIfLong s, List.Pairwise (· < ·) (p.2.map Entry.id)) ∧
    List.Pairwise
      (fun p q : ℚ × List Entry => ∀ x ∈ p.2, ∀ y ∈ q.2, x.id < y.id)
      (emitIfLong s) ∧
    (∀ p ∈ emitIfLong s, ∀ x ∈ p.2,
      (∃ q ∈ s.emitted, x ∈ q.2) ∨ x ∈ s.streak_details) := by
  refine ⟨?_, ?_, ?_⟩
  · intro p hp
    rcases mem_emitIfLong hp with h1 | h1
    · exact h.hEm p h1
    · rw [h1.1]; exact h.hCur
  · unfold emitIfLong
    split_ifs with hg
    · refine List.pairwise_append.mpr ⟨h.hCross, List.pairwise_singleton _ _, ?_⟩
      intro p hp q hq x hx y hy
      rw [List.mem_singleton] at hq
      subst hq
      exact h.hEmCur p hp x hx y hy
    · exact h.hCross
  · intro p hp x hx
    rcases mem_emitIfLong hp with h1 | h1
    · exact Or.inl ⟨p, h1, hx⟩
    · right; rw [h1.1] at hx; exact hx

lemma emitIfLong_lt {s : ScanState} (h : ScanInv s) {j : Nat}
    (hj : ∀ l, s.last_id = some l → l < j) :
    ∀ p ∈ emitIfLong s, ∀ x ∈ p.2, x.id < j := by
  intro p hp x hx
  rcases (emitIfLong_inv h).2.2 p hp x hx with ⟨q, hq, hxq⟩ | hxd
  · cases hl : s.last_id with
    | none => rcases h.hNone hl with ⟨he, _, _⟩; rw [he] at hq; simp at hq
    | some l => exact lt_of_le_of_lt (h.hUbEm l hl q hq x hxq) (hj l hl)
  · cases hl : s.last_id with
    | none => rcases h.hNone hl with ⟨_, hd, _⟩; rw [hd] at hxd; simp at hxd
    | some l => exact lt_of_le_of_lt (h.hUbCur l hl x hxd) (hj l hl)

lemma scanInv_extend {s : ScanState} (h : ScanInv s) {j : Nat} {new : List Entry}
    (hnext : ∀ l, s.last_id = some l → l < j)
    (hlast : s.last_id ≠ none)
    (hnew : List.Pairwise (· < ·) (new.map Entry.id))
    (hnewid : ∀ x ∈ new, x.id = j)
    (cur : ℚ) (st : Option Nat) (pend : ℚ) :
    ScanInv { emitted := s.emitted, current_streak := cur, streak_start_id := st,
              streak_details := s.streak_details ++ new, last_id := some j,
              pending_draw := pend } := by
  obtain ⟨l, hl⟩ : ∃ l, s.last_id = some l := by
    cases hsl : s.last_id with
    | some l => exact ⟨l, rfl⟩
    | none => exact absurd hsl hlast
  have hlj := hnext l hl
  refine ⟨h.hEm, h.hCross, ?_, ?_, ?_, ?_, ?_⟩
  · rw [List.map_append]
    refine List.pairwise_append.mpr ⟨h.hCur, hnew, ?_⟩
    intro a ha b hb
    rcases List.mem_map.mp ha with ⟨y, hy, rfl⟩
    rcases List.mem_map.mp hb with ⟨x, hx, rfl⟩
    rw [hnewid x hx]
    exact lt_of_le_of_lt (h.hUbCur l hl y hy) hlj
  · intro p hp x hx y hy
    rcases List.mem_append.mp hy with hy1 | hy1
    · exact h.hEmCur p hp x hx y hy1
    · rw [hnewid y hy1]
      exact lt_of_le_of_lt (h.hUbEm l hl p hp x hx) hlj
  · intro l2 hl2 p hp x hx
    have hl3 : some j = some l2 := hl2
    injection hl3 with e
    subst e
    exact le_of_lt (lt_of_le_of_lt (h.hUbEm l hl p hp x hx) hlj)
  · intro l2 hl2 y hy
    have hl3 : some j = some l2 := hl2
    injection hl3 with e
    subst e
    rcases List.mem_append.mp hy with hy1 | hy1
    · exact le_of_lt (lt_of_le_of_lt (h.hUbCur l hl y hy1) hlj)
    · exact le_of_eq (hnewid y hy1)
  · intro hc
    exact absurd hc (by simp)

lemma scanInv_step (df : List Record) (pn : String) {s : ScanState} {r : Record}
    (h : ScanInv s) (hnext : ∀ l, s.last_id = some l → l < r.id) :
    ScanInv (step df pn s r) := by
  have hlt := emitIfLong_lt h hnext
  have E := emitIfLong_inv h
  unfold step
  by_cases h1 : r.winner = pn
  · rw [if_pos h1]
    by_cases h2 : s.streak_start_id = none ∨ is_sequential s.last_id r.id = false
    · rw [if_pos h2]
      refine ⟨E.1, E.2.1, ?_, ?_, ?_, ?_, ?_⟩
      · simp [entryOfRow]
      · intro p hp x hx y hy
        have hy2 := List.mem_singleton.mp hy
        subst hy2
        exact hlt p hp x hx
      · intro l hl p hp x hx
        have hl3 : some r.id = some l := hl
        injection hl3 with e
        subst e
        exact le_of_lt (hlt p hp x hx)
      · intro l hl y hy
        have hl3 : some r.id = some l := hl
        injection hl3 with e
        subst e
        have hy2 := List.mem_singleton.mp hy
        subst hy2
        exact le_refl _
      · intro hc
        exact absurd hc (by simp)
    · rw [if_neg h2]
      push_neg at h2
      have hlast : s.last_id ≠ none := fun hn => h2.1 (h.hNone hn).2.2
      obtain ⟨l, hl⟩ : ∃ l, s.last_id = some l := by
        cases hsl : s.last_id with
        | some l => exact ⟨l, rfl⟩
        | none => exact absurd hsl hlast
      have hseq : is_sequential s.last_id r.id = true := by
        cases hb : is_sequential s.last_id r.id
        · exact absurd hb h2.2
        · rfl
      have hr : r.id = l + 1 := by
        rw [hl] at hseq
        simpa [is_sequential] using hseq
      have hgd : s.last_id.getD 0 = l := by rw [hl]; rfl
      have hnext2 : ∀ l2, s.last_id = some l2 → l2 < l + 1 := by
        intro l2 hl2
        rw [hl] at hl2
        injection hl2 with e
        omega
      rw [hgd, hr]
      rcases contDetails_succ_cases df l with hcd | ⟨x, hcd, hxid⟩ <;> rw [hcd]
      · exact scanInv_extend h hnext2 hlast (by simp) (by simp) _ _ _
      · exact scanInv_extend h hnext2 hlast (by simp)
          (by intro y hy; rw [List.mem_singleton.mp hy, hxid]) _ _ _
  · rw [if_neg h1]
    by_cases h3 : r.winner = "Draw" ∧ is_sequential s.last_id r.id = true
    · rw [if_pos h3]
      by_cases h4 : s.streak_start_id ≠ none
      · rw [if_pos h4]
        have hlast : s.last_id ≠ none := fun hn => h4 (h.hNone hn).2.2
        exact scanInv_extend h hnext hlast (by simp)
          (by intro y hy; rw [List.mem_singleton.mp hy]; rfl) _ _ _
      · rw [if_neg h4]
        refine ⟨h.hEm, h.hCross, h.hCur, h.hEmCur, ?_, ?_, ?_⟩
        · intro l hl p hp x hx
          have hl3 : some r.id = some l := hl
          injection hl3 with e
          subst e
          cases hsl : s.last_id with
          | none =>
              have he := (h.hNone hsl).1
              rw [he] at hp
              exact absurd hp (by simp)
          | some l0 =>
              exact le_of_lt (lt_of_le_of_lt (h.hUbEm l0 hsl p hp x hx) (hnext l0 hsl))
        · intro l hl y hy
          have hl3 : some r.id = some l := hl
          injection hl3 with e
          subst e
          cases hsl : s.last_id with
          | none =>
              have hd := (h.hNone hsl).2.1
              rw [hd] at hy
              exact absurd hy (by simp)
          | some l0 =>
              exact le_of_lt (lt_of_le_of_lt (h.hUbCur l0 hsl y hy) (hnext l0 hsl))
        · intro hc
          exact absurd hc (by simp)
    · rw [if_neg h3]
      refine ⟨E.1, E.2.1, by simp, ?_, ?_, ?_, ?_⟩
      · intro p hp x hx y hy
        exact absurd hy (by simp)
      · intro l hl p hp x hx
        have hl3 : some r.id = some l := hl
        injection hl3 with e
        subst e
        exact le_of_lt (hlt p hp x hx)
      · intro l hl y hy
        exact absurd hy (by simp)
      · intro hc
        exact absurd hc (by simp)

lemma scanInv_foldl (df : List Record) (pn : String) :
    ∀ (rs : List Record) (s : ScanState), ScanInv s → idsOK s.last_id rs →
      ScanInv (rs.foldl (step df pn) s) := by
  intro rs
  induction rs with
  | nil => intro s h _; exact h
  | cons r t ih =>
      intro s h hok
      refine ih (step df pn s r) (scanInv_step df pn h hok.1) ?_
      rw [step_last_id]
      exact hok.2

lemma idsOK_of_chain_aux :
    ∀ (t : List Record) (r : Record),
      List.Chain' (fun a b : Record => a.id < b.id) (r :: t) → idsOK (some r.id) t := by
  intro t
  induction t with
  | nil => intro r _; trivial
  | cons b t2 ih =>
      intro r hch
      rcases List.chain'_cons.mp hch with ⟨hrb, htl⟩
      refine ⟨?_, ih b htl⟩
      intro l hl
      injection hl with e
      subst e
      exact hrb

lemma idsOK_of_chain (df : List Record)
    (h : List.Chain' (fun a b : Record => a.id < b.id) df) : idsOK none df := by
  cases df with
  | nil => trivial
  | cons r t =>
      refine ⟨?_, idsOK_of_chain_aux t r h⟩
      intro l hl
      cases hl

/-- Claim C6: on any input table sorted strictly ascending by id, the
detail-entry ids inside each emitted streak are strictly increasing, and
the id ranges of successively emitted streaks are disjoint and ordered:
every detail id of one emitted streak is strictly below every detail id
of the next. -/
theorem c6_streak_ranges (pn : String) (df : List Record)
    (hs : List.Chain' (fun a b : Record => a.id < b.id) df) :
    (∀ p ∈ streakPairs df pn, List.Chain' (· < ·) (p.2.map Entry.id)) ∧
    List.Chain' (fun p q : ℚ × List Entry => ∀ x ∈ p.2, ∀ y ∈ q.2, x.id < y.id)
      (streakPairs df pn) := by
  have hinv : ScanInv (runScan df pn) :=
    scanInv_foldl df pn df initState scanInv_init (idsOK_of_chain df hs)
  have E := emitIfLong_inv hinv
  exact ⟨fun p hp => (E.1 p hp).chain', E.2.1.chain'⟩

/-- Witness: claim C6 applied to the concrete sorted table of Scenario A. -/
theorem c6_witness :
    List.Chain' (fun a b : Record => a.id < b.id) exA ∧
    ((∀ p ∈ streakPairs exA "P", List.Chain' (· < ·) (p.2.map Entry.id)) ∧
      List.Chain' (fun p q : ℚ × List Entry => ∀ x ∈ p.2, ∀ y ∈ q.2, x.id < y.id)
        (streakPairs exA "P")) :=
  ⟨by norm_num [exA, List.chain'_cons], c6_streak_ranges "P" exA (by norm_num [exA, List.chain'_cons])⟩

/-- Claim C5: every streak length the scanner outputs is strictly greater
than 1 — runs whose accumulated length is at most 1, including the run
still open at end of input, are never emitted. -/
theorem c5_lengths_gt_one (pn : String) (df : List Record) :
    ∀ x ∈ (calculate_streaks_and_details df pn).1, 1 < x := by
  intro x hx
  have hx2 : x ∈ (streakPairs df pn).map Prod.fst := hx
  rcases List.mem_map.mp hx2 with ⟨p, hp, hpx⟩
  have hbase : ∀ q ∈ initState.emitted, 1 < q.1 := by simp [initState]
  have hall := foldl_emitted_gt df pn df initState hbase
  have := emitIfLong_gt hall p hp
  rwa [hpx] at this

/-- Witness: claim C5 applied to Scenario A, whose scan emits the length 3. -/
theorem c5_witness :
    (3 : ℚ) ∈ (calculate_streaks_and_details exA "P").1 ∧ (1 : ℚ) < 3 := by
  have hm : (calculate_streaks_and_details exA "P").1 = [3] := by
    simp [calculate_streaks_and_details, streakPairs, runScan, initState, step,
      emitIfLong, contDetails, lookupEntry, entryOfRow, is_sequential, exA]
    norm_num
  have h3 : (3 : ℚ) ∈ (calculate_streaks_and_details exA "P").1 := by
    rw [hm]; exact List.mem_singleton.mpr rfl
  exact ⟨h3, c5_lengths_gt_one "P" exA 3 h3⟩

/-! ### The win-continuation range collapses to the current id -/

lemma contDetails_succ_toList (df : List Record) (l : Nat) :
    contDetails df l (l + 1) = (lookupEntry df (l + 1)).toList := by
  unfold contDetails
  have h1 : l + 1 - l = 1 := by omega
  have h2 : List.range' (l + 1) 1 = [l + 1] := by simp [List.range']
  rw [h1, h2]
  cases hf : lookupEntry df (l + 1) <;> simp [List.filterMap_cons, hf]

lemma step_start_some (df : List Record) (pn : String) :
    ∀ (rs : List Record) (s : ScanState),
      (s.last_id = none → s.streak_start_id = none) →
      ((rs.foldl (step df pn) s).last_id = none →
        (rs.foldl (step df pn) s).streak_start_id = none) := by
  intro rs
  induction rs with
  | nil => intro s h; exact h
  | cons r t ih =>
      intro s h
      refine ih (step df pn s r) ?_
      intro hn
      rw [step_last_id] at hn
      cases hn

lemma contBranch_state {pn : String} {df : List Record} {n : Nat} {r : Record}
    (hb : contBranch pn (scanStateAt df pn n) r) :
    ∃ l, (scanStateAt df pn n).last_id = some l ∧ r.id = l + 1 := by
  have hbase : (scanStateAt df pn n).last_id = none →
      (scanStateAt df pn n).streak_start_id = none :=
    step_start_some df pn (df.take n) initState (fun _ => rfl)
  have hstart : (scanStateAt df pn n).streak_start_id ≠ none := fun hc => hb.2 (Or.inl hc)
  obtain ⟨l, hl⟩ : ∃ l, (scanStateAt df pn n).last_id = some l := by
    cases hsl : (scanStateAt df pn n).last_id with
    | some l => exact ⟨l, rfl⟩
    | none => exact absurd (hbase hsl) hstart
  have hseq : is_sequential (scanStateAt df pn n).last_id r.id = true := by
    cases hc : is_sequential (scanStateAt df pn n).last_id r.id
    · exact absurd (Or.inr hc) hb.2
    · rfl
  rw [hl] at hseq
  exact ⟨l, hl, by simpa [is_sequential] using hseq⟩

/-- Claim C4, refuted part: no input, player and loop position make the
win-continuation branch append a detail entry whose id differs from the
current record's id — the inclusive range `(last_id + 1 .. id)` never
contains a skipped-over id, because the branch requires `id = last_id + 1`. -/
theorem c4_counterexample :
    ¬ ∃ (pn : String) (df : List Record) (n : Nat) (r : Record) (e : Entry),
        contBranch pn (scanStateAt df pn n) r ∧
        e ∈ contDetails df ((scanStateAt df pn n).last_id.getD 0) r.id ∧
        e.id ≠ r.id := by
  rintro ⟨pn, df, n, r, e, hb, he, hne⟩
  obtain ⟨l, hl, hr⟩ := contBranch_state hb
  rw [hl] at he
  have hgd : (some l).getD 0 = l := rfl
  rw [hgd, hr, contDetails_succ_toList] at he
  cases hf : lookupEntry df (l + 1) with
  | none => rw [hf] at he; cases he
  | some x =>
      rw [hf] at he
      have hex : e = x := by simpa [Option.toList] using he
      subst hex
      exact hne (by rw [lookupEntry_id hf, hr])

/-- Claim C4, amended: in the win-continuation branch the scanner appends
one detail entry per id of the inclusive range `(last_id + 1 .. id)`, each
looked up from the full record table by id; since the branch requires
`id = last_id + 1`, that range is always exactly the singleton of the
current record's id, so exactly one entry, with the current id, is
appended. -/
theorem c4_amended (pn : String) (df : List Record) (n : Nat) (r : Record)
    (hn : n < df.length) (hr : df.get ⟨n, hn⟩ = r)
    (hb : contBranch pn (scanStateAt df pn n) r) :
    ∃ e, lookupEntry df r.id = some e ∧
      contDetails df ((scanStateAt df pn n).last_id.getD 0) r.id = [e] ∧
      e.id = r.id := by
  obtain ⟨l, hl, hrid⟩ := contBranch_state hb
  have hmem : r ∈ df := hr ▸ df.get_mem n hn
  have hfind : (df.find? (fun q => q.id == r.id)).isSome :=
    List.find?_isSome.mpr ⟨r, hmem, by simp⟩
  obtain ⟨q, hq⟩ := Option.isSome_iff_exists.mp hfind
  refine ⟨⟨r.id, q.opponent_elo, q.elo_difference⟩, ?_, ?_, rfl⟩
  · unfold lookupEntry
    rw [hq]
    rfl
  · rw [hl]
    have hgd : (some l).getD 0 = l := rfl
    rw [hgd, hrid, contDetails_succ_toList]
    unfold lookupEntry
    rw [← hrid, hq]
    rfl

/-- Witness: claim C4 (amended) applied at the second record of Scenario
A, a sequential win continuing the streak opened at id 1. -/
theorem c4_witness :
    (1 < exA.length ∧ contBranch "P" (scanStateAt exA "P" 1) ⟨2, "P", 1480, -12⟩) ∧
    (∃ e, lookupEntry exA 2 = some e ∧
      contDetails exA ((scanStateAt exA "P" 1).last_id.getD 0) 2 = [e] ∧
      e.id = 2) := by
  have hstate : scanStateAt exA "P" 1 =
      ⟨[], 1, some 1, [⟨1, 1500, 10⟩], some 1, 0⟩ := by
    simp [scanStateAt, initState, step, emitIfLong, contDetails, lookupEntry,
      entryOfRow, is_sequential, exA]
  have hb : contBranch "P" (scanStateAt exA "P" 1) ⟨2, "P", 1480, -12⟩ := by
    rw [hstate]; decide
  exact ⟨⟨by decide, hb⟩, c4_amended "P" exA 1 ⟨2, "P", 1480, -12⟩ (by decide) rfl hb⟩

/-! ### Pending-draw weight facts -/

lemma pending_foldl (df : List Record) (pn : String) :
    ∀ (rs : List Record) (s : ScanState),
      (s.pending_draw = 0 ∨ s.pending_draw = 1/2) →
      ((rs.foldl (step df pn) s).pending_draw = 0 ∨
        (rs.foldl (step df pn) s).pending_draw = 1/2) := by
  intro rs
  induction rs with
  | nil => intro s h; exact h
  | cons r t ih => intro s _; exact ih (step df pn s r) (step_pending df pn s r)

lemma drawRun_foldl (df : List Record) (pn : String) (hpn : pn ≠ "Draw") :
    ∀ (ds : List Record) (l : Nat) (s : ScanState) (a : Nat),
      s.streak_start_id = some a → s.last_id = some l → drawRunFrom l ds →
      (ds.foldl (step df pn) s).current_streak = s.current_streak ∧
      (ds.foldl (step df pn) s).streak_start_id = some a ∧
      (ds.foldl (step df pn) s).last_id = some (l + ds.length) ∧
      (ds ≠ [] → (ds.foldl (step df pn) s).pending_draw = 1/2) := by
  intro ds
  induction ds with
  | nil =>
      intro l s a hs hl _
      exact ⟨rfl, hs, by simpa using hl, fun h => absurd rfl h⟩
  | cons d t ih =>
      intro l s a hs hl hrun
      obtain ⟨hid, hwin, hrest⟩ := hrun
      have hstep : step df pn s d =
          { s with pending_draw := 1/2,
                   streak_details := s.streak_details ++ [entryOfRow d],
                   last_id := some d.id } := by
        unfold step
        rw [if_neg ?hw, if_pos ?hd, if_pos ?hs2]
        case hw =>
          rw [hwin]
          exact fun hc => hpn hc.symm
        case hd =>
          refine ⟨hwin, ?_⟩
          rw [hl, hid]
          simp [is_sequential]
        case hs2 =>
          rw [hs]
          simp
      rw [List.foldl_cons, hstep]
      obtain ⟨hc, hsa, hll, hp⟩ :=
        ih d.id { s with pending_draw := 1/2,
                         streak_details := s.streak_details ++ [entryOfRow d],
                         last_id := some d.id } a hs rfl hrest
      refine ⟨hc, hsa, ?_, ?_⟩
      · rw [hll, hid]
        congr 1
        simp [List.length_cons]
        omega
      · intro _
        cases t with
        | nil => rfl
        | cons e t2 => exact hp (by simp)

lemma step_continue {df : List Record} {pn : String} {s : ScanState} {r : Record}
    (hw : r.winner = pn)
    (hcond : ¬(s.streak_start_id = none ∨ is_sequential s.last_id r.id = false)) :
    step df pn s r =
      { s with current_streak := s.current_streak + (1 + s.pending_draw),
               streak_details := s.streak_details ++ contDetails df (s.last_id.getD 0) r.id,
               last_id := some r.id, pending_draw := 0 } := by
  unfold step
  rw [if_pos hw, if_neg hcond]

/-- Claim C10: across any scan the pending draw weight is always 0 or
0.5, and it is overwritten rather than accumulated by consecutive draws:
from any state with an open streak, a run of k ≥ 1 consecutive sequential
draw records followed by a sequential confirming win increases the streak
length by exactly 1 + 0.5, independent of k. -/
theorem c10_pending_draw :
    (∀ (pn : String) (df : List Record) (n : Nat),
        (scanStateAt df pn n).pending_draw = 0 ∨
        (scanStateAt df pn n).pending_draw = 1/2) ∧
    (∀ (pn : String) (df : List Record) (s : ScanState) (a l : Nat)
        (ds : List Record) (w : Record),
        pn ≠ "Draw" → s.streak_start_id = some a → s.last_id = some l →
        drawRunFrom l ds → ds ≠ [] →
        w.winner = pn → w.id = l + ds.length + 1 →
        ((ds ++ [w]).foldl (step df pn) s).current_streak
          = s.current_streak + (1 + 1/2)) := by
  constructor
  · intro pn df n
    exact pending_foldl df pn (df.take n) initState (Or.inl rfl)
  · intro pn df s a l ds w hpn hs hl hrun hne hw hwid
    rw [List.foldl_append]
    obtain ⟨hc, hsa, hll, hp⟩ := drawRun_foldl df pn hpn ds l s a hs hl hrun
    have hp2 := hp hne
    have hcond : ¬((ds.foldl (step df pn) s).streak_start_id = none ∨
        is_sequential (ds.foldl (step df pn) s).last_id w.id = false) := by
      rintro (h1 | h1)
      · rw [hsa] at h1; cases h1
      · rw [hll, hwid] at h1
        simp [is_sequential] at h1
    rw [List.foldl_cons, List.foldl_nil, step_continue hw hcond]
    show (ds.foldl (step df pn) s).current_streak +
        (1 + (ds.foldl (step df pn) s).pending_draw) = s.current_streak + (1 + 1/2)
    rw [hc, hp2]

/-- Witness: claim C10 part 2 applied after the opening win of Scenario
B, with one draw record and a confirming win. -/
theorem c10_witness :
    (("P" : String) ≠ "Draw" ∧
      (scanStateAt exB "P" 1).streak_start_id = some 1 ∧
      (scanStateAt exB "P" 1).last_id = some 1 ∧
      drawRunFrom 1 [⟨2, "Draw", 1450, -20⟩] ∧
      ([⟨2, "Draw", 1450, -20⟩] : List Record) ≠ [] ∧
      (⟨3, "P", 1520, 5⟩ : Record).winner = "P" ∧
      (⟨3, "P", 1520, 5⟩ : Record).id = 1 + ([⟨2, "Draw", 1450, -20⟩] : List Record).length + 1) ∧
    (([⟨2, "Draw", 1450, -20⟩, ⟨3, "P", 1520, 5⟩] : List Record).foldl
        (step exB "P") (scanStateAt exB "P" 1)).current_streak
      = (scanStateAt exB "P" 1).current_streak + (1 + 1/2) := by
  have hstate : scanStateAt exB "P" 1 =
      ⟨[], 1, some 1, [⟨1, 1500, 10⟩], some 1, 0⟩ := by
    simp [scanStateAt, initState, step, emitIfLong, contDetails, lookupEntry,
      entryOfRow, is_sequential, exB]
  have h1 : (scanStateAt exB "P" 1).streak_start_id = some 1 := by rw [hstate]
  have h2 : (scanStateAt exB "P" 1).last_id = some 1 := by rw [hstate]
  have h3 : drawRunFrom 1 [⟨2, "Draw", 1450, -20⟩] := ⟨rfl, rfl, trivial⟩
  refine ⟨⟨by decide, h1, h2, h3, by simp, rfl, rfl⟩, ?_⟩
  exact c10_pending_draw.2 "P" exB (scanStateAt exB "P" 1) 1 1
    [⟨2, "Draw", 1450, -20⟩] ⟨3, "P", 1520, 5⟩ (by decide) h1 h2 h3 (by simp) rfl rfl

/-! ### The aggregator: maximum, grid and frequency table -/

lemma foldl_max_le_init : ∀ (t : List ℚ) (x : ℚ), x ≤ t.foldl max x := by
  intro t
  induction t with
  | nil => intro x; exact le_refl x
  | cons y t2 ih =>
      intro x
      simp only [List.foldl_cons]
      exact le_trans (le_max_left x y) (ih (max x y))

lemma foldl_max_mem : ∀ (t : List ℚ) (x : ℚ), t.foldl max x ∈ x :: t := by
  intro t
  induction t with
  | nil => intro x; simp
  | cons y t2 ih =>
      intro x
      simp only [List.foldl_cons]
      rcases List.mem_cons.mp (ih (max x y)) with h | h
      · rcases max_choice x y with hm | hm
        · rw [h, hm]; exact List.mem_cons_self _ _
        · rw [h, hm]; exact List.mem_cons_of_mem _ (List.mem_cons_self _ _)
      · exact List.mem_cons_of_mem _ (List.mem_cons_of_mem _ h)

lemma le_foldl_max : ∀ (t : List ℚ) (x z : ℚ), z ∈ x :: t → z ≤ t.foldl max x := by
  intro t
  induction t with
  | nil =>
      intro x z hz
      simp at hz
      simp [hz]
  | cons y t2 ih =>
      intro x z hz
      simp only [List.foldl_cons]
      rcases List.mem_cons.mp hz with h | h
      · subst h
        exact le_trans (le_max_left z y) (foldl_max_le_init t2 (max z y))
      · rcases List.mem_cons.mp h with h2 | h2
        · subst h2
          exact le_trans (le_max_right x z) (foldl_max_le_init t2 (max x z))
        · exact ih (max x y) z (List.mem_cons_of_mem _ h2)

lemma seriesMax_spec {xs : List ℚ} {m : ℚ} (h : seriesMax xs = some m) :
    m ∈ xs ∧ ∀ x ∈ xs, x ≤ m := by
  cases xs with
  | nil => cases h
  | cons x t =>
      have hm : t.foldl max x = m := by
        have h2 : some (t.foldl max x) = some m := h
        injection h2
      constructor
      · exact hm ▸ foldl_max_mem t x
      · intro z hz
        exact hm ▸ le_foldl_max t x z hz

lemma np_arange_halfgrid (k : Nat) :
    np_arange 2 (((k : ℚ) + 4)/2 + 1/2) (1/2) =
      (List.range (k + 1)).map (fun i : Nat => 2 + (i : ℚ)/2) := by
  unfold np_arange
  have h1 : (((k : ℚ) + 4)/2 + 1/2 - 2) / (1/2) = ((k : ℚ) + 1) := by ring
  rw [h1]
  have h2 : (⌈((k : ℚ) + 1)⌉).toNat = k + 1 := by
    have h3 : ((k : ℚ) + 1) = ((k + 1 : ℕ) : ℚ) := by push_cast; ring
    rw [h3, Int.ceil_natCast, Int.toNat_natCast]
  rw [h2]
  apply List.map_congr_left
  intro i _
  ring

/-- Claim C7: for every nonempty list of emitted streak lengths (half
integers that are at least 2), the aggregator succeeds and its frequency
table has as domain exactly the dense grid 2, 2.5, 3, ..., max in steps
of 0.5 — contiguous from 2 up to the attained maximum, no gaps — and for
each grid value the count is the number of streaks of exactly that
length, zero counts retained. -/
theorem c7_frequency_table (xs : List ℚ) (hne : xs ≠ [])
    (hx : ∀ x ∈ xs, ∃ n : Nat, 4 ≤ n ∧ x = (n : ℚ)/2) :
    ∃ (m : ℚ) (k : Nat), seriesMax xs = some m ∧ m ∈ xs ∧ (∀ x ∈ xs, x ≤ m) ∧
      m = ((k : ℚ) + 4)/2 ∧
      create_combined_frequencies xs =
        .ok (((List.range (k + 1)).map (fun i : Nat => 2 + (i : ℚ)/2)).map
          (fun xi => (xi, xs.count xi))) ∧
      (∀ x : ℚ, x ∈ (List.range (k + 1)).map (fun i : Nat => 2 + (i : ℚ)/2) ↔
        ((∃ n : Nat, x = (n : ℚ)/2) ∧ 2 ≤ x ∧ x ≤ m)) ∧
      List.Chain' (fun a b => b = a + 1/2)
        ((List.range (k + 1)).map (fun i : Nat => 2 + (i : ℚ)/2)) ∧
      ((List.range (k + 1)).map (fun i : Nat => 2 + (i : ℚ)/2)).head? = some 2 ∧
      ((List.range (k + 1)).map (fun i : Nat => 2 + (i : ℚ)/2)).getLast? = some m := by
  obtain ⟨m, hm⟩ : ∃ m, seriesMax xs = some m := by
    cases xs with
    | nil => exact absurd rfl hne
    | cons x t => exact ⟨t.foldl max x, rfl⟩
  obtain ⟨hmem, hub⟩ := seriesMax_spec hm
  obtain ⟨n, hn4, hmn⟩ := hx m hmem
  have hcast : ((n - 4 : ℕ) : ℚ) = (n : ℚ) - 4 := by
    push_cast [hn4]
    ring
  have hkey : m = (((n - 4 : ℕ) : ℚ) + 4)/2 := by
    rw [hcast, hmn]
    ring
  refine ⟨m, n - 4, hm, hmem, hub, hkey, ?_, ?_, ?_, ?_, ?_⟩
  · unfold create_combined_frequencies
    rw [hm]
    show Except.ok ((np_arange 2 (m + 1/2) (1/2)).map (fun xi => (xi, xs.count xi))) = _
    rw [hkey, np_arange_halfgrid]
  · intro x
    constructor
    · intro hxg
      rcases List.mem_map.mp hxg with ⟨i, hi, rfl⟩
      have hik : i ≤ n - 4 := Nat.lt_succ_iff.mp (List.mem_range.mp hi)
      have hi0 : (0 : ℚ) ≤ (i : ℚ)/2 := by positivity
      refine ⟨⟨i + 4, by push_cast; ring⟩, by linarith, ?_⟩
      rw [hkey]
      have : ((i : ℚ)) ≤ ((n - 4 : ℕ) : ℚ) := by exact_mod_cast hik
      linarith
    · rintro ⟨⟨n2, rfl⟩, h2x, hxm⟩
      have hn2 : 4 ≤ n2 := by
        have : (4 : ℚ) ≤ (n2 : ℚ) := by linarith
        exact_mod_cast this
      have hn2k : n2 ≤ n := by
        rw [hkey, hcast] at hxm
        have : (n2 : ℚ) ≤ (n : ℚ) := by linarith
        exact_mod_cast this
      refine List.mem_map.mpr ⟨n2 - 4, List.mem_range.mpr ?_, ?_⟩
      · omega
      · have : ((n2 - 4 : ℕ) : ℚ) = (n2 : ℚ) - 4 := by push_cast [hn2]; ring
        rw [this]
        ring
  · rw [List.chain'_map, List.chain'_range_succ]
    intro i _
    push_cast
    ring
  · rw [List.range_succ_eq_map, List.map_cons, List.head?_cons]
    norm_num
  · rw [List.range_succ, List.map_append, List.map_cons, List.map_nil,
      List.getLast?_concat]
    rw [hkey]
    congr 1
    ring

/-- Witness: claim C7 applied to the singleton length list containing 3. -/
theorem c7_witness :
    (([3] : List ℚ) ≠ [] ∧
      ∀ x ∈ ([3] : List ℚ), ∃ n : Nat, 4 ≤ n ∧ x = (n : ℚ)/2) ∧
    (∃ (m : ℚ) (k : Nat), seriesMax [3] = some m ∧ m ∈ ([3] : List ℚ) ∧
      (∀ x ∈ ([3] : List ℚ), x ≤ m) ∧
      m = ((k : ℚ) + 4)/2 ∧
      create_combined_frequencies [3] =
        .ok (((List.range (k + 1)).map (fun i : Nat => 2 + (i : ℚ)/2)).map
          (fun xi => (xi, ([3] : List ℚ).count xi))) ∧
      (∀ x : ℚ, x ∈ (List.range (k + 1)).map (fun i : Nat => 2 + (i : ℚ)/2) ↔
        ((∃ n : Nat, x = (n : ℚ)/2) ∧ 2 ≤ x ∧ x ≤ m)) ∧
      List.Chain' (fun a b => b = a + 1/2)
        ((List.range (k + 1)).map (fun i : Nat => 2 + (i : ℚ)/2)) ∧
      ((List.range (k + 1)).map (fun i : Nat => 2 + (i : ℚ)/2)).head? = some 2 ∧
      ((List.range (k + 1)).map (fun i : Nat => 2 + (i : ℚ)/2)).getLast? = some m) := by
  have hx : ∀ x ∈ ([3] : List ℚ), ∃ n : Nat, 4 ≤ n ∧ x = (n : ℚ)/2 := by
    intro x hxm
    have hx3 : x = 3 := List.mem_singleton.mp hxm
    exact ⟨6, by norm_num, by rw [hx3]; norm_num⟩
  exact ⟨⟨by simp, hx⟩, c7_frequency_table [3] (by simp) hx⟩

/-- Claim C2 evaluated: on an empty streak-length list the aggregator
does not raise an explicit empty-input error; the undefined (NaN) maximum
flows into the grid construction, which crashes. -/
theorem c2_empty_input_crash :
    create_combined_frequencies [] =
      .error "ValueError: cannot convert float NaN to integer" := rfl

/-! ### Concrete scenario theorems -/

/-- Claim C1, refuted: on records `[(1, Win), (2, Draw), (3, Win)]` the
scanner does not emit a streak of length 3 — the confirmed draw adds only
1 + 0.5 on the closing win, so the single emitted length is 2.5. -/
theorem c1_counterexample :
    (calculate_streaks_and_details exB "P").1 ≠ [(3 : ℚ)] := by
  have h : (calculate_streaks_and_details exB "P").1 = [5/2] := by
    simp [calculate_streaks_and_details, streakPairs, runScan, initState, step,
      emitIfLong, contDetails, lookupEntry, entryOfRow, is_sequential, exB]
    norm_num
  rw [h]
  simp only [ne_eq, List.cons.injEq, and_true]
  norm_num

/-- Claim C1, amended: on records `[(1, Win), (2, Draw), (3, Win)]` the
scanner emits exactly one streak, of length 2.5 (1 for the opening win,
plus 1 + 0.5 when the win at id 3 confirms the pending draw), with detail
entries for ids 1, 2 and 3. -/
theorem c1_amended_scenario_b :
    calculate_streaks_and_details exB "P" =
      ([5/2], [⟨1, 1500, 10⟩, ⟨2, 1450, -20⟩, ⟨3, 1520, 5⟩]) := by
  simp [calculate_streaks_and_details, streakPairs, runScan, initState, step,
    emitIfLong, contDetails, lookupEntry, entryOfRow, is_sequential, exB]
  norm_num

/-- Claim C3: on records `[(1, Win), (2, Win), (3, Draw), (4, Loss)]` the
scanner emits one streak of length 2 whose detail entries include the
trailing draw at id 3 — the draw record is in the input as a Draw, its
entry is in the emitted details, yet the emitted length 2 counts only the
two wins, never the pending 0.5. -/
theorem c3_trailing_draw_detail :
    streakPairs exWWDL "P" =
      [(2, [⟨1, 1500, 10⟩, ⟨2, 1480, -12⟩, ⟨3, 1450, -20⟩])] ∧
    (⟨3, "Draw", 1450, -20⟩ : Record) ∈ exWWDL := by
  constructor
  · simp [streakPairs, runScan, initState, step, emitIfLong, contDetails,
      lookupEntry, entryOfRow, is_sequential, exWWDL]
    norm_num
  · simp [exWWDL]

/-- Claim C8: on records `[(1, Win), (2, Draw), (3, Loss)]` nothing is
emitted — after the draw the open run still has length 1 with the 0.5
only pending, and the loss closes it without the 0.5 ever applied, so the
length-1 run is silently discarded. -/
theorem c8_win_draw_loss :
    calculate_streaks_and_details exC "P" = ([], []) ∧
    (scanStateAt exC "P" 2).current_streak = 1 ∧
    (scanStateAt exC "P" 2).pending_draw = 1/2 ∧
    (scanStateAt exC "P" 3).current_streak = 0 ∧
    (scanStateAt exC "P" 3).emitted = [] := by
  refine ⟨?_, ?_, ?_, ?_, ?_⟩ <;>
    simp [calculate_streaks_and_details, streakPairs, runScan, scanStateAt,
      initState, step, emitIfLong, contDetails, lookupEntry, entryOfRow,
      is_sequential, exC] <;>
    norm_num

/-- Claim C9: on records `[(1, Win), (3, Win)]` (gap at id 2) nothing is
emitted — the non-sequential id terminates the first length-1 run
(discarded, nothing emitted) and opens a new run at id 3 of length 1,
which is discarded at end of input. -/
theorem c9_gap_discards :
    calculate_streaks_and_details exD "P" = ([], []) ∧
    (scanStateAt exD "P" 1).current_streak = 1 ∧
    (scanStateAt exD "P" 2).current_streak = 1 ∧
    (scanStateAt exD "P" 2).streak_start_id = some 3 ∧
    (scanStateAt exD "P" 2).emitted = [] := by
  refine ⟨?_, ?_, ?_, ?_, ?_⟩ <;>
    simp [calculate_streaks_and_details, streakPairs, runScan, scanStateAt,
      initState, step, emitIfLong, contDetails, lookupEntry, entryOfRow,
      is_sequential, exD] <;>
    norm_num

end TheProcedure
